import Mathlib

/-!
Verification of the handle-based doubly linked list in `src/sys/windows/ll.rs`.

Shallow embedding: the heap is modelled explicitly as a list of optional
nodes (`Mem`), where an address is an index; `some n` is a live allocation
holding node `n`, and `none` is a slot that was freed (or never touched by
this list).  A Rust `Link<T> = Option<Box<Node<T>>>` and a `Rawlink<T>`
both become `Option Nat`: `none` for the empty link / null pointer and
`some a` for a pointer to address `a`.  Dereferencing a pointer is `lookup`;
dereferencing a dangling pointer (a freed slot) is undefined behaviour in
the source and surfaces here as the error `LLErr.corrupt` (or, for `push`,
as the `none` result).  A list instance additionally carries an identity
`id : Nat`, modelling its address, which is what `Entry.ll` stores and what
`ensure_same_ll` compares.  Fresh allocation (`Box::new`) appends one slot
at the end of the heap, so an address is never reused; this is sound for
every claim considered here, since using a handle after its node was freed
is outside the source's contract.
-/

set_option linter.unusedVariables false

namespace Mio

/-- One heap node (`Node<T>` in the source): the owning forward link
`next`, the non-owning backward link `prev`, and the stored value. -/
structure Node (T : Type) where
  next : Option Nat
  prev : Option Nat
  value : T
deriving DecidableEq

/-- The heap: slot `a` holds `some n` when address `a` is a live node. -/
abbrev Mem (T : Type) := List (Option (Node T))

variable {T : Type}

/-- Dereference an address: the node currently stored at slot `a`
(`none` when the slot is out of range or freed). -/
def lookup : Mem T → Nat → Option (Node T)
  | [], _ => none
  | o :: _, 0 => o
  | _ :: mem, a + 1 => lookup mem a

/-- Overwrite slot `a` (no-op when out of range, mirroring `List.set`). -/
def setSlot : Mem T → Nat → Option (Node T) → Mem T
  | [], _, _ => []
  | _ :: mem, 0, v => v :: mem
  | o :: mem, a + 1, v => o :: setSlot mem a v

/-- Write through a pointer: update the node at address `a` in place.
A write through a dangling pointer (dead slot) leaves the heap unchanged;
the source makes such a write undefined behaviour. -/
def updNode (mem : Mem T) (a : Nat) (f : Node T → Node T) : Mem T :=
  match lookup mem a with
  | none => mem
  | some n => setSlot mem a (some (f n))

/-- Free the allocation at address `a` (dropping a `Box`). -/
def memFree (mem : Mem T) (a : Nat) : Mem T := setSlot mem a none

/-- `Rawlink::from(&mut Link<T>)`: the address stored in the forward link
of the node at `a` (null when that link is `None`). -/
def linkAt (mem : Mem T) (a : Nat) : Option Nat := (lookup mem a).bind Node.next

/-- The value stored at address `a`, if the slot is live. -/
def valAt (mem : Mem T) (a : Nat) : Option T := (lookup mem a).map Node.value

/-- `LinkedList<T>`: the owning head link and the raw tail back-pointer.
`id` models the list instance's own address (`self as *mut LinkedList<T>`),
used only for the `ensure_same_ll` identity check. -/
structure LinkedList (T : Type) where
  id : Nat
  mem : Mem T
  head : Option Nat
  tail : Option Nat
deriving DecidableEq

/-- `Entry<T>`: the handle, holding the originating list's address and a
raw pointer to the node. -/
structure Entry (T : Type) where
  ll : Nat
  node : Option Nat
deriving DecidableEq

/-- Failure modes of the embedded operations.  `foreignHandle` is the
`ensure_same_ll` assertion; `invalidEntry` is the
`expect("invalid entry")` (resp. `unwrap`) panic when a handle's node
pointer is null; `unwrapPanic` is the `take().unwrap()` panic when an
owning forward link that is being extracted is unexpectedly empty; and
`corrupt` stands for the undefined behaviour of dereferencing a dangling
pointer.  Only `foreignHandle` is reachable from states satisfying the
invariant when handles come from `push`. -/
inductive LLErr where
  | foreignHandle
  | invalidEntry
  | unwrapPanic
  | corrupt
deriving DecidableEq

namespace LinkedList

/-- `LinkedList::new()`; the `id` argument models the fresh instance's
address. -/
def new (id : Nat) : LinkedList T := ⟨id, [], none, none⟩

/-- `is_empty`: true iff the head link is empty. -/
def is_empty (l : LinkedList T) : Bool := l.head.isNone

/-- `ensure_same_ll`: the handle's stored list address equals this list's
address.  In the source a mismatch is an `assert!` failure. -/
def ensure_same_ll (l : LinkedList T) (e : Entry T) : Bool := e.ll == l.id

/-- `Entry::new`: record the list's address and a pointer to the node. -/
def entryNew (l : LinkedList T) (addr : Nat) : Entry T := ⟨l.id, some addr⟩

/-- `get_mut`: check list identity, then dereference the handle's node
pointer and return the stored value.  A null pointer is the `unwrap`
panic; a dangling pointer is undefined behaviour in the source. -/
def get_mut (l : LinkedList T) (e : Entry T) : Except LLErr T :=
  if ensure_same_ll l e then
    match e.node with
    | none => Except.error LLErr.invalidEntry
    | some a =>
      match lookup l.mem a with
      | none => Except.error LLErr.corrupt
      | some n => Except.ok n.value
  else Except.error LLErr.foreignHandle

/-- `push_front(new_head)`: `addr` is the address of the freshly boxed
node (already allocated in `l.mem`).  The `none` branch is
`link_no_prev` plus `tail = Rawlink::from(&mut self.head)`.  The `some`
branch clears the new node's `prev`, points the old head's `prev` at the
new node, swaps the two boxes (so `self.head` now boxes `addr`), and
makes the new head own the old head. -/
def push_front (l : LinkedList T) (addr : Nat) : LinkedList T :=
  match l.head with
  | none =>
    let mem1 := updNode l.mem addr (fun n => { n with prev := none })
    { l with mem := mem1, head := some addr, tail := some addr }
  | some h =>
    let mem1 := updNode l.mem addr (fun n => { n with prev := none })
    let mem2 := updNode mem1 h (fun n => { n with prev := some addr })
    let mem3 := updNode mem2 addr (fun n => { n with next := some h })
    { l with mem := mem3, head := some addr }

/-- `push(el)`: allocate `Node::new(el)` (fresh address = current heap
size), build the `Entry`, then either `push_front` (null tail) or
`set_next` on the resolved tail followed by
`self.tail = Rawlink::from(&mut tail.next)`.  The result is `none` only
when the tail pointer dangles, which is undefined behaviour in the
source and unreachable from valid states. -/
def push (l : LinkedList T) (el : T) : Option (Entry T × LinkedList T) :=
  let addr := l.mem.length
  let mem0 := l.mem ++ [some ⟨none, none, el⟩]
  let entry : Entry T := ⟨l.id, some addr⟩
  match l.tail with
  | none => some (entry, push_front { l with mem := mem0 } addr)
  | some t =>
    match lookup mem0 t with
    | none => none
    | some _ =>
      let mem1 := updNode mem0 addr (fun n => { n with prev := some t })
      let mem2 := updNode mem1 t (fun n => { n with next := some addr })
      some (entry, { l with mem := mem2, tail := linkAt mem2 t })

/-- Model of `*link.take().unwrap()` on an owning forward link whose
stored address is `old`: `none` is the `unwrap` panic, a dead slot is a
dangling owner (undefined behaviour); otherwise the boxed node is moved
out and its allocation freed. -/
def takeBox (mem : Mem T) (old : Option Nat) : Except LLErr (Node T × Mem T) :=
  match old with
  | none => Except.error LLErr.unwrapPanic
  | some oa =>
    match lookup mem oa with
    | none => Except.error LLErr.corrupt
    | some n => Except.ok (n, memFree mem oa)

/-- `remove(entry)` up to (but not including) the final
`removed.value` projection: it returns the whole removed node, so that
the `debug_assert!(removed.next.is_none())` can be stated about the
result.  Mirrors the source step for step: identity check, resolve the
handle pointer, read `prev`, `take` the node's `next`, then the four-way
match on `(prev.resolve_mut(), next)`. -/
def removeNode (l : LinkedList T) (e : Entry T) :
    Except LLErr (Node T) × LinkedList T :=
  if ensure_same_ll l e then
    match e.node with
    | none => (Except.error LLErr.invalidEntry, l)
    | some a =>
      match lookup l.mem a with
      | none => (Except.error LLErr.corrupt, l)
      | some node =>
        let prev := node.prev
        let next := node.next
        let mem1 := updNode l.mem a (fun n => { n with next := none })
        match prev, next with
        | some p, some nx =>
          match lookup mem1 p with
          | none => (Except.error LLErr.corrupt, { l with mem := mem1 })
          | some _ =>
            let mem2 := updNode mem1 nx (fun n => { n with prev := some p })
            let old := linkAt mem2 p
            let mem3 := updNode mem2 p (fun n => { n with next := some nx })
            match takeBox mem3 old with
            | Except.error er => (Except.error er, { l with mem := mem3 })
            | Except.ok (n, mem4) => (Except.ok n, { l with mem := mem4 })
        | none, some nx =>
          let mem2 := updNode mem1 nx (fun n => { n with prev := none })
          let old := l.head
          match takeBox mem2 old with
          | Except.error er => (Except.error er, { l with mem := mem2, head := some nx })
          | Except.ok (n, mem3) => (Except.ok n, { l with mem := mem3, head := some nx })
        | some p, none =>
          match lookup mem1 p with
          | none => (Except.error LLErr.corrupt, { l with mem := mem1, tail := prev })
          | some _ =>
            let old := linkAt mem1 p
            let mem2 := updNode mem1 p (fun n => { n with next := none })
            match takeBox mem2 old with
            | Except.error er => (Except.error er, { l with mem := mem2, tail := prev })
            | Except.ok (n, mem3) => (Except.ok n, { l with mem := mem3, tail := prev })
        | none, none =>
          let old := l.head
          match takeBox mem1 old with
          | Except.error er => (Except.error er, { l with mem := mem1, head := none, tail := none })
          | Except.ok (n, mem2) => (Except.ok n, { l with mem := mem2, head := none, tail := none })
  else (Except.error LLErr.foreignHandle, l)

/-- `remove(entry)`: the removed node's owned value. -/
def remove (l : LinkedList T) (e : Entry T) : Except LLErr T × LinkedList T :=
  match removeNode l e with
  | (Except.error er, l') => (Except.error er, l')
  | (Except.ok n, l') => (Except.ok n.value, l')

/-- The forward traversal of `Iter::next`, starting from link `cur`.
The `fuel` argument only serves Lean's termination checker: it strictly
exceeds the heap size when called from `iter`, and a chain satisfying
the invariant is duplicate-free, hence shorter than the fuel, so the
fuel never runs out on a valid list. -/
def iterFrom (mem : Mem T) : Nat → Option Nat → List T
  | 0, _ => []
  | _, none => []
  | fuel + 1, some a =>
    match lookup mem a with
    | none => []
    | some n => n.value :: iterFrom mem fuel n.next

/-- `iter().collect()`: all values in forward order. -/
def iter (l : LinkedList T) : List T := iterFrom l.mem (l.mem.length + 1) l.head

/-- Push a whole sequence of values in order, collecting the returned
handles. -/
def pushAll (l : LinkedList T) : List T → Option (List (Entry T) × LinkedList T)
  | [] => some ([], l)
  | v :: vs =>
    match push l v with
    | none => none
    | some (e, l1) =>
      match pushAll l1 vs with
      | none => none
      | some (es, l2) => some (e :: es, l2)

end LinkedList

/-- Chain-segment check: starting with incoming backward link `pl` and
incoming forward link `cur`, the addresses `xs` form a consecutive
doubly linked segment in `mem`, and the segment exits with backward
link `fl` and forward link `fc`. -/
def segOk (mem : Mem T) : Option Nat → Option Nat → List Nat → Option Nat → Option Nat → Bool
  | pl, cur, [], fl, fc => fl == pl && fc == cur
  | pl, cur, a :: xs, fl, fc =>
    cur == some a &&
      (match lookup mem a with
        | none => false
        | some n => n.prev == pl && segOk mem (some a) n.next xs fl fc)

/-- Full-chain check: `xs` is exactly the forward chain reachable from
link `cur`, every node of it is live, consecutive `next`/`prev` links
match, the first node's `prev` is `pl`, and the last node's `next` is
empty. -/
def chainOk (mem : Mem T) : Option Nat → Option Nat → List Nat → Bool
  | _, cur, [] => cur == none
  | pl, cur, a :: xs =>
    cur == some a &&
      (match lookup mem a with
        | none => false
        | some n => n.prev == pl && chainOk mem (some a) n.next xs)

/-- The backward link exiting a segment `xs` entered with backward link
`pl`: the last element of `xs`, or `pl` when `xs` is empty. -/
def exitPl (pl : Option Nat) : List Nat → Option Nat
  | [] => pl
  | a :: xs => exitPl (some a) xs

/-- The values stored along a list of addresses (dead slots skipped;
along a valid chain every slot is live). -/
def vals (mem : Mem T) (cs : List Nat) : List T :=
  cs.filterMap (fun a => (lookup mem a).map Node.value)

/-- The structural invariants of §3 of the specification, with `cs` the
list of node addresses in forward order:
1.  the forward chain from the head visits exactly the nodes of `cs`, in
    order, each live, and ends with an empty forward link (`chain`);
2.  backward links: the first node's `prev` is empty and every other
    node's `prev` is its immediate predecessor (also `chain`);
3.  the tail back-reference is the last chain node, or empty iff the
    chain is empty (`tail_ok`, since `exitPl none cs` is the last
    element of `cs`);
4.  a live allocation exists iff it is on the chain (`complete` for one
    direction, liveness inside `chain` for the other), and the chain
    has no duplicates (`nodup`), so the traversal sees every live node
    exactly once. -/
structure Inv (l : LinkedList T) (cs : List Nat) : Prop where
  chain : chainOk l.mem none l.head cs = true
  tail_ok : l.tail = exitPl none cs
  nodup : cs.Nodup
  complete : ∀ b, b < l.mem.length → (lookup l.mem b).isSome → b ∈ cs
  len_le : cs.length ≤ l.mem.length

/-- States reachable from `new` through the public mutating interface:
successful pushes and successful removals. -/
inductive Reachable : LinkedList T → Prop where
  | base (id : Nat) : Reachable (LinkedList.new id)
  | push_step {l l' : LinkedList T} {v : T} {e : Entry T} :
      Reachable l → LinkedList.push l v = some (e, l') → Reachable l'
  | remove_step {l l' : LinkedList T} {e : Entry T} {v : T} :
      Reachable l → LinkedList.remove l e = (Except.ok v, l') → Reachable l'

/-! ### Heap lemmas -/

theorem lookup_nil (a : Nat) : lookup ([] : Mem T) a = none := by
  cases a <;> rfl

theorem lookup_len_le {mem : Mem T} {a : Nat} (h : mem.length ≤ a) :
    lookup mem a = none := by
  induction mem generalizing a with
  | nil => exact lookup_nil a
  | cons o mem ih =>
    cases a with
    | zero => simp at h
    | succ a => exact ih (by simpa using h)

theorem lookup_isSome_lt {mem : Mem T} {a : Nat}
    (h : (lookup mem a).isSome) : a < mem.length := by
  by_contra hlt
  rw [lookup_len_le (by omega)] at h
  simp at h

theorem length_setSlot (mem : Mem T) (a : Nat) (v : Option (Node T)) :
    (setSlot mem a v).length = mem.length := by
  induction mem generalizing a with
  | nil => rfl
  | cons o mem ih =>
    cases a with
    | zero => rfl
    | succ a => simpa [setSlot] using ih a

theorem lookup_setSlot_self {mem : Mem T} {a : Nat} (h : a < mem.length)
    (v : Option (Node T)) : lookup (setSlot mem a v) a = v := by
  induction mem generalizing a with
  | nil => simp at h
  | cons o mem ih =>
    cases a with
    | zero => rfl
    | succ a => exact ih (by simpa using h)

theorem lookup_setSlot_ne {mem : Mem T} {a b : Nat} (h : b ≠ a)
    (v : Option (Node T)) : lookup (setSlot mem a v) b = lookup mem b := by
  induction mem generalizing a b with
  | nil => rfl
  | cons o mem ih =>
    cases a with
    | zero => cases b with
      | zero => exact absurd rfl h
      | succ b => rfl
    | succ a => cases b with
      | zero => rfl
      | succ b =>
        have hb : b ≠ a := fun hh => h (by rw [hh])
        simpa [setSlot, lookup] using ih hb

theorem length_updNode (mem : Mem T) (a : Nat) (f : Node T → Node T) :
    (updNode mem a f).length = mem.length := by
  unfold updNode
  cases lookup mem a with
  | none => rfl
  | some n => exact length_setSlot mem a _

theorem lookup_updNode (mem : Mem T) (a : Nat) (f : Node T → Node T) (b : Nat) :
    lookup (updNode mem a f) b =
      if b = a then (lookup mem a).map f else lookup mem b := by
  unfold updNode
  by_cases hb : b = a
  · subst hb
    cases h : lookup mem b with
    | none => simp [h]
    | some n =>
      have hlt : b < mem.length := lookup_isSome_lt (by simp [h])
      simp [lookup_setSlot_self hlt, h]
  · cases h : lookup mem a with
    | none => simp [hb]
    | some n => simp [lookup_setSlot_ne hb, hb]

theorem length_memFree (mem : Mem T) (a : Nat) :
    (memFree mem a).length = mem.length := length_setSlot mem a none

theorem lookup_memFree (mem : Mem T) (a b : Nat) :
    lookup (memFree mem a) b = if b = a then none else lookup mem b := by
  unfold memFree
  by_cases hb : b = a
  · subst hb
    rcases Nat.lt_or_ge b mem.length with hlt | hge
    · simp [lookup_setSlot_self hlt]
    · have hle : (setSlot mem b (none : Option (Node T))).length ≤ b := by
        rw [length_setSlot]; exact hge
      simp [lookup_len_le hle]
  · simp [lookup_setSlot_ne hb, hb]

theorem lookup_append_lt {mem : Mem T} {b : Nat} (h : b < mem.length)
    (ys : Mem T) : lookup (mem ++ ys) b = lookup mem b := by
  induction mem generalizing b with
  | nil => simp at h
  | cons o mem ih =>
    cases b with
    | zero => rfl
    | succ b => exact ih (by simpa using h)

theorem lookup_append_self (mem : Mem T) (x : Option (Node T)) :
    lookup (mem ++ [x]) mem.length = x := by
  induction mem with
  | nil => rfl
  | cons o mem ih => simpa [lookup] using ih

/-! ### Chain-segment lemmas -/

theorem exitPl_append (pl : Option Nat) (xs ys : List Nat) :
    exitPl pl (xs ++ ys) = exitPl (exitPl pl xs) ys := by
  induction xs generalizing pl with
  | nil => rfl
  | cons a xs ih => simpa [exitPl] using ih (some a)

theorem exitPl_some_isSome (a : Nat) (xs : List Nat) :
    (exitPl (some a) xs).isSome := by
  induction xs generalizing a with
  | nil => rfl
  | cons b xs ih => simpa [exitPl] using ih b

theorem exitPl_none_eq_nil {xs : List Nat}
    (h : exitPl none xs = none) : xs = [] := by
  cases xs with
  | nil => rfl
  | cons a xs =>
    have := exitPl_some_isSome a xs
    rw [show exitPl (some a) xs = exitPl none (a :: xs) from rfl, h] at this
    simp at this

theorem segOk_nil_iff {mem : Mem T} {pl cur fl fc : Option Nat} :
    segOk mem pl cur [] fl fc = true ↔ fl = pl ∧ fc = cur := by
  simp [segOk]

theorem segOk_cons_iff {mem : Mem T} {pl cur fl fc : Option Nat} {a : Nat}
    {xs : List Nat} :
    segOk mem pl cur (a :: xs) fl fc = true ↔
      cur = some a ∧ ∃ n, lookup mem a = some n ∧ n.prev = pl ∧
        segOk mem (some a) n.next xs fl fc = true := by
  cases h : lookup mem a with
  | none => simp [segOk, h]
  | some n => simp [segOk, h, and_assoc]

theorem segOk_singleton_iff {mem : Mem T} {pl cur fl fc : Option Nat} {a : Nat} :
    segOk mem pl cur [a] fl fc = true ↔
      cur = some a ∧ ∃ n, lookup mem a = some n ∧ n.prev = pl ∧
        fl = some a ∧ fc = n.next := by
  rw [segOk_cons_iff]
  constructor
  · rintro ⟨hc, n, hn, hp, hseg⟩
    rw [segOk_nil_iff] at hseg
    exact ⟨hc, n, hn, hp, hseg.1, hseg.2⟩
  · rintro ⟨hc, n, hn, hp, hfl, hfc⟩
    exact ⟨hc, n, hn, hp, by rw [segOk_nil_iff]; exact ⟨hfl, hfc⟩⟩

theorem segOk_append_iff {mem : Mem T} {pl cur fl fc : Option Nat}
    {xs ys : List Nat} :
    segOk mem pl cur (xs ++ ys) fl fc = true ↔
      ∃ ml mc, segOk mem pl cur xs ml mc = true ∧
        segOk mem ml mc ys fl fc = true := by
  induction xs generalizing pl cur with
  | nil =>
    simp only [List.nil_append, segOk_nil_iff]
    constructor
    · intro h; exact ⟨pl, cur, ⟨rfl, rfl⟩, h⟩
    · rintro ⟨ml, mc, ⟨h1, h2⟩, h⟩; rw [h1, h2] at h; exact h
  | cons a xs ih =>
    simp only [List.cons_append, segOk_cons_iff, ih]
    constructor
    · rintro ⟨hc, n, hn, hp, ml, mc, h1, h2⟩
      exact ⟨ml, mc, ⟨hc, n, hn, hp, h1⟩, h2⟩
    · rintro ⟨ml, mc, ⟨hc, n, hn, hp, h1⟩, h2⟩
      exact ⟨hc, n, hn, hp, ml, mc, h1, h2⟩

theorem segOk_congr {mem mem' : Mem T} {xs : List Nat}
    (hagree : ∀ b ∈ xs, lookup mem' b = lookup mem b) :
    ∀ pl cur fl fc, segOk mem' pl cur xs fl fc = segOk mem pl cur xs fl fc := by
  induction xs with
  | nil => intro pl cur fl fc; rfl
  | cons a xs ih =>
    intro pl cur fl fc
    have ha : lookup mem' a = lookup mem a := hagree a (by simp)
    have ih' := ih (fun b hb => hagree b (by simp [hb]))
    simp only [segOk, ha]
    cases lookup mem a with
    | none => rfl
    | some n => simp [ih']

theorem segOk_fl {mem : Mem T} {xs : List Nat} :
    ∀ {pl cur fl fc}, segOk mem pl cur xs fl fc = true → fl = exitPl pl xs := by
  induction xs with
  | nil =>
    intro pl cur fl fc h
    exact (segOk_nil_iff.mp h).1
  | cons a xs ih =>
    intro pl cur fl fc h
    obtain ⟨-, n, -, -, hseg⟩ := segOk_cons_iff.mp h
    simpa [exitPl] using ih hseg

theorem segOk_live {mem : Mem T} {xs : List Nat} :
    ∀ {pl cur fl fc}, segOk mem pl cur xs fl fc = true →
      ∀ b ∈ xs, (lookup mem b).isSome := by
  induction xs with
  | nil => intro _ _ _ _ _ b hb; simp at hb
  | cons a xs ih =>
    intro pl cur fl fc h b hb
    obtain ⟨-, n, hn, -, hseg⟩ := segOk_cons_iff.mp h
    rcases List.mem_cons.mp hb with rfl | hb
    · simp [hn]
    · exact ih hseg b hb

theorem chainOk_iff_segOk {mem : Mem T} {pl cur : Option Nat} {xs : List Nat} :
    chainOk mem pl cur xs = true ↔
      segOk mem pl cur xs (exitPl pl xs) none = true := by
  induction xs generalizing pl cur with
  | nil =>
    simp only [chainOk, segOk, exitPl, Bool.and_eq_true, beq_iff_eq]
    constructor
    · intro h; exact ⟨trivial, h.symm⟩
    · rintro ⟨-, h⟩; exact h.symm
  | cons a xs ih =>
    simp only [chainOk, segOk, exitPl]
    cases lookup mem a with
    | none => simp
    | some n => simp [ih]

theorem chainOk_live {mem : Mem T} {pl cur : Option Nat} {xs : List Nat}
    (h : chainOk mem pl cur xs = true) : ∀ b ∈ xs, (lookup mem b).isSome :=
  segOk_live (chainOk_iff_segOk.mp h)

/-! ### Values along a chain -/

theorem vals_nil (mem : Mem T) : vals mem [] = [] := rfl

theorem vals_cons (mem : Mem T) (a : Nat) (cs : List Nat) :
    vals mem (a :: cs) =
      (match lookup mem a with
        | none => vals mem cs
        | some n => n.value :: vals mem cs) := by
  cases h : lookup mem a <;> simp [vals, h]

theorem vals_append (mem : Mem T) (xs ys : List Nat) :
    vals mem (xs ++ ys) = vals mem xs ++ vals mem ys := by
  simp [vals]

theorem vals_congr {mem mem' : Mem T} {cs : List Nat}
    (h : ∀ b ∈ cs, valAt mem' b = valAt mem b) :
    vals mem' cs = vals mem cs := by
  induction cs with
  | nil => rfl
  | cons a cs ih =>
    have ha : valAt mem' a = valAt mem a := h a (by simp)
    have ih' := ih (fun b hb => h b (by simp [hb]))
    simp only [vals, List.filterMap_cons] at ih' ⊢
    rw [ih']
    unfold valAt at ha
    cases h1 : lookup mem' a <;> cases h2 : lookup mem a <;>
      simp [h1, h2] at ha ⊢
    exact ha

theorem iterFrom_eq_vals {mem : Mem T} {cs : List Nat} :
    ∀ {pl cur : Option Nat} {fuel : Nat}, chainOk mem pl cur cs = true →
      cs.length ≤ fuel → LinkedList.iterFrom mem fuel cur = vals mem cs := by
  induction cs with
  | nil =>
    intro pl cur fuel h hf
    have : cur = none := by simpa [chainOk] using h
    subst this
    cases fuel <;> rfl
  | cons a cs ih =>
    intro pl cur fuel h hf
    simp only [chainOk, Bool.and_eq_true] at h
    obtain ⟨h1, h2⟩ := h
    have hcur : cur = some a := by simpa using h1
    subst hcur
    cases hn : lookup mem a with
    | none => rw [hn] at h2; simp at h2
    | some n =>
      rw [hn, Bool.and_eq_true] at h2
      obtain ⟨-, h3⟩ := h2
      cases fuel with
      | zero => simp at hf
      | succ fuel =>
        simp only [LinkedList.iterFrom, hn, vals_cons]
        rw [ih h3 (by simpa using hf)]

theorem iter_eq_vals {l : LinkedList T} {cs : List Nat} (hInv : Inv l cs) :
    LinkedList.iter l = vals l.mem cs :=
  iterFrom_eq_vals hInv.chain (by have := hInv.len_le; omega)

/-! ### Facts that follow from the invariant -/

theorem Inv.live {l : LinkedList T} {cs : List Nat} (hInv : Inv l cs) {b : Nat}
    (hb : b ∈ cs) : (lookup l.mem b).isSome :=
  chainOk_live hInv.chain b hb

theorem Inv.mem_lt {l : LinkedList T} {cs : List Nat} (hInv : Inv l cs) {b : Nat}
    (hb : b ∈ cs) : b < l.mem.length :=
  lookup_isSome_lt (hInv.live hb)

theorem Inv.head_none {l : LinkedList T} (hInv : Inv l ([] : List Nat)) :
    l.head = none := by
  have := hInv.chain
  simpa [chainOk] using this

theorem Inv.dead_of_nil {l : LinkedList T} (hInv : Inv l ([] : List Nat)) :
    ∀ b, lookup l.mem b = none := by
  intro b
  by_cases hb : b < l.mem.length
  · by_contra hne
    have hs : (lookup l.mem b).isSome := Option.isSome_iff_ne_none.mpr hne
    simpa using hInv.complete b hb hs
  · exact lookup_len_le (by omega)

/-! ### Specification of `push` -/

theorem push_spec {l : LinkedList T} {cs : List Nat} (hInv : Inv l cs) (v : T) :
    ∃ l', LinkedList.push l v = some (⟨l.id, some l.mem.length⟩, l') ∧
      l'.id = l.id ∧
      l'.mem.length = l.mem.length + 1 ∧
      Inv l' (cs ++ [l.mem.length]) ∧
      (∀ b ∈ cs, valAt l'.mem b = valAt l.mem b) ∧
      valAt l'.mem l.mem.length = some v ∧
      vals l'.mem (cs ++ [l.mem.length]) = vals l.mem cs ++ [v] ∧
      l'.head = (if cs = [] then some l.mem.length else l.head) ∧
      l'.tail = some l.mem.length ∧
      (lookup l'.mem l.mem.length).map Node.prev = some (exitPl none cs) ∧
      (∀ t, exitPl none cs = some t →
        (lookup l'.mem t).map Node.next = some (some l.mem.length)) := by
  rcases List.eq_nil_or_concat cs with rfl | ⟨s, t, rfl⟩
  · -- the list is empty: `push_front`, `link_no_prev` branch
    have htail : l.tail = none := by simpa [exitPl] using hInv.tail_ok
    have hhead : l.head = none := hInv.head_none
    have hdead := hInv.dead_of_nil
    set addr := l.mem.length with haddr
    set mem0 : Mem T := l.mem ++ [some ⟨none, none, v⟩] with hmem0
    have h0addr : lookup mem0 addr = some ⟨none, none, v⟩ := lookup_append_self _ _
    set mem1 := updNode mem0 addr (fun n => { n with prev := none }) with hmem1
    have h1 : ∀ b, lookup mem1 b =
        if b = addr then some ⟨none, none, v⟩ else lookup mem0 b := by
      intro b
      rw [hmem1, lookup_updNode]
      by_cases hb : b = addr <;> simp [hb, h0addr]
    have hpush : LinkedList.push l v =
        some (⟨l.id, some addr⟩, ⟨l.id, mem1, some addr, some addr⟩) := by
      rw [LinkedList.push, htail]
      rw [show ({ l with mem := mem0 } : LinkedList T).head = l.head from rfl] at *
      simp only [LinkedList.push_front]
      rw [hhead]
    refine ⟨⟨l.id, mem1, some addr, some addr⟩, hpush, rfl, ?_, ?_, ?_, ?_, ?_, ?_, ?_, ?_, ?_⟩
    · rw [hmem1]; rw [length_updNode, hmem0]; simp [haddr]
    · constructor
      · simp [chainOk, h1]
      · simp [exitPl]
      · simp
      · intro b hb hs
        rcases eq_or_ne b addr with rfl | hne
        · simp
        · rw [h1, if_neg hne] at hs
          exfalso
          rcases Nat.lt_or_ge b l.mem.length with hlt | hge
          · rw [hmem0, lookup_append_lt hlt, hdead b] at hs; simp at hs
          · have : b = addr ∨ addr < b := by omega
            rcases this with rfl | hgt
            · exact hne rfl
            · rw [lookup_len_le (by simp [hmem0]; omega)] at hs; simp at hs
      · simp only [List.length_nil, List.length_cons, List.nil_append]
        rw [length_updNode]
        simp [hmem0]
    · intro b hb; simp at hb
    · simp [valAt, h1]
    · simp [vals, h1]
    · simp
    · simp
    · simp [h1, exitPl]
    · intro t ht; simp [exitPl] at ht
  · -- nonempty list: append after the current tail via `set_next`
    simp only [List.concat_eq_append] at hInv ⊢
    have htail : l.tail = some t := by
      rw [hInv.tail_ok, exitPl_append]; rfl
    have hseg0 : segOk l.mem none l.head (s ++ [t]) (exitPl none (s ++ [t])) none :=
      chainOk_iff_segOk.mp hInv.chain
    obtain ⟨ml, mc, hs_seg, ht_seg⟩ := segOk_append_iff.mp hseg0
    obtain ⟨hmc, tn, htn, htnprev, hfl, hfc⟩ := segOk_singleton_iff.mp ht_seg
    subst hmc
    -- the old tail node is live and its forward link is empty
    have htn_next : tn.next = none := hfc.symm
    have htlt : t < l.mem.length := hInv.mem_lt (by simp)
    have haddr_big : ∀ b ∈ s ++ [t], b < l.mem.length := fun b hb => hInv.mem_lt hb
    have htns : t ∉ s := by
      have := hInv.nodup
      rw [List.nodup_append] at this
      intro habs
      exact this.2.2 habs (by simp)
    set addr := l.mem.length with haddr
    set mem0 : Mem T := l.mem ++ [some ⟨none, none, v⟩] with hmem0
    have h0addr : lookup mem0 addr = some ⟨none, none, v⟩ := lookup_append_self _ _
    have h0lt : ∀ b, b < l.mem.length → lookup mem0 b = lookup l.mem b :=
      fun b hb => lookup_append_lt hb _
    have h0t : lookup mem0 t = some tn := by rw [h0lt t htlt, htn]
    set mem1 := updNode mem0 addr (fun n => { n with prev := some t }) with hmem1
    have h1 : ∀ b, lookup mem1 b =
        if b = addr then some ⟨none, some t, v⟩ else lookup mem0 b := by
      intro b
      rw [hmem1, lookup_updNode]
      by_cases hb : b = addr <;> simp [hb, h0addr]
    set mem2 := updNode mem1 t (fun n => { n with next := some addr }) with hmem2
    have htaddr : t ≠ addr := by omega
    have h2 : ∀ b, lookup mem2 b =
        if b = t then some ⟨some addr, tn.prev, tn.value⟩ else lookup mem1 b := by
      intro b
      rw [hmem2, lookup_updNode]
      have h1t : lookup mem1 t = some tn := by rw [h1, if_neg htaddr, h0t]
      by_cases hb : b = t <;> simp [hb, h1t]
    have h2addr : lookup mem2 addr = some ⟨none, some t, v⟩ := by
      rw [h2, if_neg (Ne.symm htaddr), h1, if_pos rfl]
    have h2other : ∀ b, b ≠ t → b ≠ addr → lookup mem2 b = lookup mem0 b := by
      intro b hbt hba
      rw [h2, if_neg hbt, h1, if_neg hba]
    have hlink : linkAt mem2 t = some addr := by
      rw [linkAt, h2, if_pos rfl]; rfl
    have hpush : LinkedList.push l v =
        some (⟨l.id, some addr⟩, ⟨l.id, mem2, l.head, some addr⟩) := by
      rw [LinkedList.push, htail]
      simp only [h0t, hlink]
    have hlen2 : mem2.length = l.mem.length + 1 := by
      rw [hmem2, length_updNode, hmem1, length_updNode, hmem0]; simp
    have hvalpres : ∀ b ∈ s ++ [t], valAt mem2 b = valAt l.mem b := by
      intro b hb
      rcases eq_or_ne b t with rfl | hbt
      · rw [valAt, valAt, h2, if_pos rfl, htn]
        rfl
      · have hblt : b < l.mem.length := haddr_big b hb
        rw [valAt, valAt, h2other b hbt (by omega), h0lt b hblt]
    have hagree_s : ∀ b ∈ s, lookup mem2 b = lookup l.mem b := by
      intro b hb
      have hbs : b ∈ s ++ [t] := by simp [hb]
      have hbt : b ≠ t := fun h => htns (h ▸ hb)
      have hblt : b < l.mem.length := by
        have := haddr_big b hbs
        omega
      rw [h2other b hbt (by omega), h0lt b hblt]
    refine ⟨⟨l.id, mem2, l.head, some addr⟩, hpush, rfl, hlen2, ?_, hvalpres, ?_, ?_, ?_, rfl, ?_, ?_⟩
    · -- the invariant for the extended chain
      constructor
      · -- chain
        rw [chainOk_iff_segOk]
        have hexit : exitPl none ((s ++ [t]) ++ [addr]) = some addr := by
          rw [exitPl_append]; rfl
        rw [hexit]
        rw [segOk_append_iff]
        refine ⟨some t, some addr, ?_, ?_⟩
        · rw [segOk_append_iff]
          refine ⟨ml, some t, ?_, ?_⟩
          · rw [segOk_congr hagree_s]
            exact hs_seg
          · rw [segOk_singleton_iff]
            refine ⟨rfl, ⟨some addr, tn.prev, tn.value⟩, ?_, htnprev, rfl, rfl⟩
            rw [h2, if_pos rfl]
        · rw [segOk_singleton_iff]
          exact ⟨rfl, ⟨none, some t, v⟩, h2addr, rfl, rfl, rfl⟩
      · rw [exitPl_append]; rfl
      · refine List.Nodup.append hInv.nodup (by simp) ?_
        intro b hb hb'
        simp at hb'
        have := haddr_big b hb
        omega
      · intro b hblt hbs
        rcases eq_or_ne b addr with rfl | hba
        · simp
        · rcases eq_or_ne b t with rfl | hbt
          · simp
          · rw [h2other b hbt hba] at hbs
            have hblt' : b < l.mem.length := by
              rw [hlen2] at hblt
              omega
            rw [h0lt b hblt'] at hbs
            have := hInv.complete b hblt' hbs
            simp only [List.mem_append, List.mem_singleton] at this ⊢
            tauto
      · rw [hlen2]
        have hle := hInv.len_le
        simp only [List.length_append, List.length_cons, List.length_nil] at hle ⊢
        omega
    · rw [valAt, h2addr]; rfl
    · rw [vals_append, vals_congr hvalpres]
      simp [vals, h2addr]
    · rw [if_neg (by simp)]
    · have hex : exitPl none (s ++ [t]) = some t := hInv.tail_ok.symm.trans htail
      rw [h2addr, hex]
      rfl
    · intro t' ht'
      rw [hInv.tail_ok] at htail
      rw [htail] at ht'
      injection ht' with ht'
      subst ht'
      rw [h2, if_pos rfl]
      rfl

/-! ### Computation lemmas for the four removal cases -/

theorem removeNode_single {l : LinkedList T} {a : Nat} {na : Node T}
    (hna : lookup l.mem a = some na) (hprev : na.prev = none)
    (hnext : na.next = none) (hhead : l.head = some a) :
    LinkedList.removeNode l ⟨l.id, some a⟩ =
      (Except.ok ⟨none, na.prev, na.value⟩,
        ⟨l.id, memFree (updNode l.mem a (fun n => { n with next := none })) a,
          none, none⟩) := by
  have hm1 : lookup (updNode l.mem a (fun n => { n with next := none })) a =
      some ⟨none, na.prev, na.value⟩ := by
    rw [lookup_updNode, if_pos rfl, hna]
    rfl
  unfold LinkedList.removeNode
  simp only [LinkedList.ensure_same_ll, beq_self_eq_true, if_true]
  rw [hna]
  simp only [hprev, hnext]
  rw [hhead]
  simp only [LinkedList.takeBox, hm1]
  rw [hprev]

theorem removeNode_head {l : LinkedList T} {a nx : Nat} {na : Node T}
    (hna : lookup l.mem a = some na) (hprev : na.prev = none)
    (hnext : na.next = some nx) (hhead : l.head = some a) (hnxa : nx ≠ a) :
    LinkedList.removeNode l ⟨l.id, some a⟩ =
      (Except.ok ⟨none, na.prev, na.value⟩,
        ⟨l.id,
          memFree (updNode (updNode l.mem a (fun n => { n with next := none })) nx
            (fun n => { n with prev := none })) a,
          some nx, l.tail⟩) := by
  set mem1 := updNode l.mem a (fun n => { n with next := none }) with hmem1
  set mem2 := updNode mem1 nx (fun n => { n with prev := none }) with hmem2
  have hm1a : lookup mem1 a = some ⟨none, na.prev, na.value⟩ := by
    rw [hmem1, lookup_updNode, if_pos rfl, hna]
    rfl
  have hm2a : lookup mem2 a = some ⟨none, na.prev, na.value⟩ := by
    rw [hmem2, lookup_updNode, if_neg (Ne.symm hnxa), hm1a]
  unfold LinkedList.removeNode
  simp only [LinkedList.ensure_same_ll, beq_self_eq_true, if_true]
  rw [hna]
  simp only [hprev, hnext]
  rw [hhead]
  simp only [LinkedList.takeBox, hm2a]
  rw [hprev]

theorem removeNode_tail {l : LinkedList T} {a p : Nat} {na pn : Node T}
    (hna : lookup l.mem a = some na) (hprev : na.prev = some p)
    (hnext : na.next = none) (hpa : p ≠ a)
    (hpn : lookup l.mem p = some pn) (hpnext : pn.next = some a) :
    LinkedList.removeNode l ⟨l.id, some a⟩ =
      (Except.ok ⟨none, na.prev, na.value⟩,
        ⟨l.id,
          memFree (updNode (updNode l.mem a (fun n => { n with next := none })) p
            (fun n => { n with next := none })) a,
          l.head, some p⟩) := by
  set mem1 := updNode l.mem a (fun n => { n with next := none }) with hmem1
  set mem2 := updNode mem1 p (fun n => { n with next := none }) with hmem2
  have hm1a : lookup mem1 a = some ⟨none, na.prev, na.value⟩ := by
    rw [hmem1, lookup_updNode, if_pos rfl, hna]
    rfl
  have hm1p : lookup mem1 p = some pn := by
    rw [hmem1, lookup_updNode, if_neg hpa, hpn]
  have hm2a : lookup mem2 a = some ⟨none, na.prev, na.value⟩ := by
    rw [hmem2, lookup_updNode, if_neg (Ne.symm hpa), hm1a]
  have hlink1 : linkAt mem1 p = some a := by
    rw [linkAt, hm1p]
    simpa using hpnext
  unfold LinkedList.removeNode
  simp only [LinkedList.ensure_same_ll, beq_self_eq_true, if_true]
  rw [hna]
  simp only [hprev, hnext]
  rw [hm1p]
  simp only [hlink1, LinkedList.takeBox, hm2a]
  rw [hprev]

theorem removeNode_interior {l : LinkedList T} {a p nx : Nat} {na pn : Node T}
    (hna : lookup l.mem a = some na) (hprev : na.prev = some p)
    (hnext : na.next = some nx) (hpa : p ≠ a) (hpnx : p ≠ nx) (hnxa : nx ≠ a)
    (hpn : lookup l.mem p = some pn) (hpnext : pn.next = some a) :
    LinkedList.removeNode l ⟨l.id, some a⟩ =
      (Except.ok ⟨none, na.prev, na.value⟩,
        ⟨l.id,
          memFree (updNode (updNode (updNode l.mem a
              (fun n => { n with next := none })) nx
            (fun n => { n with prev := some p })) p
            (fun n => { n with next := some nx })) a,
          l.head, l.tail⟩) := by
  set mem1 := updNode l.mem a (fun n => { n with next := none }) with hmem1
  set mem2 := updNode mem1 nx (fun n => { n with prev := some p }) with hmem2
  set mem3 := updNode mem2 p (fun n => { n with next := some nx }) with hmem3
  have hm1a : lookup mem1 a = some ⟨none, na.prev, na.value⟩ := by
    rw [hmem1, lookup_updNode, if_pos rfl, hna]
    rfl
  have hm1p : lookup mem1 p = some pn := by
    rw [hmem1, lookup_updNode, if_neg hpa, hpn]
  have hm2p : lookup mem2 p = some pn := by
    rw [hmem2, lookup_updNode, if_neg hpnx, hm1p]
  have hm2a : lookup mem2 a = some ⟨none, na.prev, na.value⟩ := by
    rw [hmem2, lookup_updNode, if_neg (Ne.symm hnxa), hm1a]
  have hm3a : lookup mem3 a = some ⟨none, na.prev, na.value⟩ := by
    rw [hmem3, lookup_updNode, if_neg (Ne.symm hpa), hm2a]
  have hlink2 : linkAt mem2 p = some a := by
    rw [linkAt, hm2p]
    simpa using hpnext
  unfold LinkedList.removeNode
  simp only [LinkedList.ensure_same_ll, beq_self_eq_true, if_true]
  rw [hna]
  simp only [hprev, hnext]
  rw [hm1p]
  simp only [hlink2, LinkedList.takeBox, hm3a]
  rw [hprev]

/-! ### Specification of `remove` -/

theorem remove_spec {l : LinkedList T} {cs : List Nat} {a : Nat}
    (hInv : Inv l cs) (ha : a ∈ cs) :
    ∃ n l', LinkedList.removeNode l ⟨l.id, some a⟩ = (Except.ok n, l') ∧
      n.next = none ∧
      some n.value = valAt l.mem a ∧
      l'.id = l.id ∧
      l'.mem.length = l.mem.length ∧
      Inv l' (cs.erase a) ∧
      ∃ xs ys, vals l.mem cs = xs ++ n.value :: ys ∧
        vals l'.mem (cs.erase a) = xs ++ ys := by
  obtain ⟨s, t, rfl⟩ := List.append_of_mem ha
  have hnd := hInv.nodup
  rw [List.nodup_append] at hnd
  obtain ⟨hs_nd, hat_nd, hdisj⟩ := hnd
  rw [List.nodup_cons] at hat_nd
  obtain ⟨hat, ht_nd⟩ := hat_nd
  have has : a ∉ s := fun hmem => hdisj hmem (by simp)
  have hdisj_st : ∀ b ∈ s, b ∉ t := fun b hb hbt => hdisj hb (by simp [hbt])
  have hseg := chainOk_iff_segOk.mp hInv.chain
  obtain ⟨ml, mc, hs_seg, hat_seg⟩ := segOk_append_iff.mp hseg
  obtain ⟨hmc, na, hna, hnaprev, ht_seg⟩ := segOk_cons_iff.mp hat_seg
  subst hmc
  have halt : a < l.mem.length := hInv.mem_lt (by simp)
  have herase : (s ++ a :: t).erase a = s ++ t := by
    rw [List.erase_append_right _ has, List.erase_cons_head]
  rw [herase]
  have hlen_le := hInv.len_le
  rw [List.length_append, List.length_cons] at hlen_le
  have hsplit : s = [] ∨ ∃ s' p, s = s' ++ [p] := by
    rcases List.eq_nil_or_concat s with h | ⟨s', p, h⟩
    · exact Or.inl h
    · exact Or.inr ⟨s', p, by simpa using h⟩
  rcases hsplit with rfl | ⟨s', p, rfl⟩
  · -- the removed node is the head of the list
    obtain ⟨hml0, hhead⟩ := segOk_nil_iff.mp hs_seg
    subst hml0
    have hhead : l.head = some a := hhead.symm
    cases t with
    | nil =>
      -- sole node
      have hnext : na.next = none := (segOk_nil_iff.mp ht_seg).2.symm
      have hres := removeNode_single hna hnaprev hnext hhead
      have hmem' : ∀ b,
          lookup (memFree (updNode l.mem a (fun n => { n with next := none })) a) b =
            if b = a then none else lookup l.mem b := by
        intro b
        rw [lookup_memFree]
        by_cases hb : b = a
        · rw [if_pos hb, if_pos hb]
        · rw [if_neg hb, if_neg hb, lookup_updNode, if_neg hb]
      refine ⟨⟨none, na.prev, na.value⟩, _, hres, rfl, by simp [valAt, hna], rfl, ?_, ?_, ?_⟩
      · simp [length_memFree, length_updNode]
      · refine ⟨?_, rfl, by simp, ?_, by simp⟩
        · simp [chainOk]
        · intro b hblt hbs
          rw [hmem'] at hbs
          by_cases hb : b = a
          · rw [if_pos hb] at hbs; simp at hbs
          · rw [if_neg hb] at hbs
            have := hInv.complete b (lookup_isSome_lt hbs) hbs
            simp [hb] at this
      · exact ⟨[], [], by simp [vals, hna], by simp [vals]⟩
    | cons nx t' =>
      -- head removal with a successor
      obtain ⟨hnx, nxn, hnxn, hnxnprev, ht'_seg⟩ := segOk_cons_iff.mp ht_seg
      have hnxa : nx ≠ a := by rintro rfl; exact hat (List.mem_cons_self _ _)
      have hnxt' : nx ∉ t' := (List.nodup_cons.mp ht_nd).1
      have hres := removeNode_head hna hnaprev hnx hhead hnxa
      have hmem' : ∀ b,
          lookup (memFree (updNode (updNode l.mem a (fun n => { n with next := none })) nx
              (fun n => { n with prev := none })) a) b =
            if b = a then none
            else if b = nx then some ⟨nxn.next, none, nxn.value⟩
            else lookup l.mem b := by
        intro b
        rw [lookup_memFree]
        by_cases hba : b = a
        · rw [if_pos hba, if_pos hba]
        · rw [if_neg hba, if_neg hba, lookup_updNode]
          by_cases hbnx : b = nx
          · subst hbnx
            rw [if_pos rfl, if_pos rfl, lookup_updNode, if_neg hnxa, hnxn]
            rfl
          · rw [if_neg hbnx, if_neg hbnx, lookup_updNode, if_neg hba]
      have ht'_agree : ∀ b ∈ t',
          lookup (memFree (updNode (updNode l.mem a (fun n => { n with next := none })) nx
              (fun n => { n with prev := none })) a) b = lookup l.mem b := by
        intro b hb
        have hba : b ≠ a := by rintro rfl; exact hat (by simp [hb])
        have hbnx : b ≠ nx := by rintro rfl; exact hnxt' hb
        rw [hmem', if_neg hba, if_neg hbnx]
      refine ⟨⟨none, na.prev, na.value⟩, _, hres, rfl, by simp [valAt, hna], rfl, ?_, ?_, ?_⟩
      · simp [length_memFree, length_updNode]
      · refine ⟨?_, ?_, ?_, ?_, ?_⟩
        · rw [chainOk_iff_segOk]
          rw [show (([] : List Nat) ++ nx :: t') = nx :: t' from rfl]
          rw [segOk_cons_iff]
          refine ⟨rfl, ⟨nxn.next, none, nxn.value⟩, ?_, rfl, ?_⟩
          · rw [hmem', if_neg hnxa, if_pos rfl]
          · rw [segOk_congr ht'_agree]
            have hfl_eq : exitPl none (nx :: t') =
                exitPl none (([] : List Nat) ++ a :: nx :: t') := by
              simp [exitPl]
            rw [show exitPl none (nx :: t') = exitPl (some nx) t' from rfl]
            rw [show exitPl none (([] : List Nat) ++ a :: nx :: t') =
              exitPl (some nx) t' from rfl] at hseg
            exact ht'_seg
        · rw [hInv.tail_ok]
          rfl
        · exact ht_nd
        · intro b hblt hbs
          rw [hmem'] at hbs
          by_cases hba : b = a
          · rw [if_pos hba] at hbs; simp at hbs
          · rw [if_neg hba] at hbs
            by_cases hbnx : b = nx
            · simp [hbnx]
            · rw [if_neg hbnx] at hbs
              have := hInv.complete b (lookup_isSome_lt hbs) hbs
              simp only [List.mem_append, List.mem_cons, List.mem_singleton,
                List.not_mem_nil] at this ⊢
              tauto
        · rw [length_memFree, length_updNode, length_updNode]
          simp at hlen_le ⊢
          omega
      · refine ⟨[], vals l.mem (nx :: t'), ?_, ?_⟩
        · simp [vals, hna]
        · rw [show (([] : List Nat) ++ nx :: t') = nx :: t' from rfl]
          rw [List.nil_append]
          refine vals_congr ?_
          intro b hb
          rcases List.mem_cons.mp hb with rfl | hb'
          · rw [valAt, valAt, hmem', if_neg hnxa, if_pos rfl, hnxn]
            rfl
          · rw [valAt, valAt, ht'_agree b hb']
  · -- the removed node has a predecessor
    obtain ⟨ml2, mc2, hs'_seg, hp_seg⟩ := segOk_append_iff.mp hs_seg
    obtain ⟨hmc2, pn, hpn, hpnprev, hplfl, hpfc⟩ := segOk_singleton_iff.mp hp_seg
    subst hmc2
    have hpnext : pn.next = some a := hpfc.symm
    have hps : p ∈ s' ++ [p] := by simp
    have hpa : p ≠ a := fun h => has (h ▸ hps)
    have hnaprev' : na.prev = some p := hnaprev.trans hplfl
    rw [List.nodup_append] at hs_nd
    obtain ⟨hs'_nd, -, hdisj_s'p⟩ := hs_nd
    have hp_not_s' : p ∉ s' := fun h => hdisj_s'p h (by simp)
    have hs'_agree_base : ∀ b ∈ s', b ≠ a ∧ b ≠ p := by
      intro b hb
      constructor
      · rintro rfl; exact has (by simp [hb])
      · rintro rfl; exact hp_not_s' hb
    cases t with
    | nil =>
      -- tail removal
      have hnext : na.next = none := (segOk_nil_iff.mp ht_seg).2.symm
      have hres := removeNode_tail hna hnaprev' hnext hpa hpn hpnext
      have hmem' : ∀ b,
          lookup (memFree (updNode (updNode l.mem a (fun n => { n with next := none })) p
              (fun n => { n with next := none })) a) b =
            if b = a then none
            else if b = p then some ⟨none, pn.prev, pn.value⟩
            else lookup l.mem b := by
        intro b
        rw [lookup_memFree]
        by_cases hba : b = a
        · rw [if_pos hba, if_pos hba]
        · rw [if_neg hba, if_neg hba, lookup_updNode]
          by_cases hbp : b = p
          · subst hbp
            rw [if_pos rfl, if_pos rfl, lookup_updNode, if_neg hpa, hpn]
            rfl
          · rw [if_neg hbp, if_neg hbp, lookup_updNode, if_neg hba]
      have hs'_agree : ∀ b ∈ s',
          lookup (memFree (updNode (updNode l.mem a (fun n => { n with next := none })) p
              (fun n => { n with next := none })) a) b = lookup l.mem b := by
        intro b hb
        obtain ⟨hba, hbp⟩ := hs'_agree_base b hb
        rw [hmem', if_neg hba, if_neg hbp]
      refine ⟨⟨none, na.prev, na.value⟩, _, hres, rfl, by simp [valAt, hna], rfl, ?_, ?_, ?_⟩
      · simp [length_memFree, length_updNode]
      · rw [List.append_nil]
        refine ⟨?_, ?_, ?_, ?_, ?_⟩
        · rw [chainOk_iff_segOk, segOk_append_iff]
          refine ⟨ml2, some p, ?_, ?_⟩
          · rw [segOk_congr hs'_agree]
            exact hs'_seg
          · rw [segOk_singleton_iff]
            refine ⟨rfl, ⟨none, pn.prev, pn.value⟩, ?_, hpnprev, ?_, rfl⟩
            · rw [hmem', if_neg hpa, if_pos rfl]
            · rw [exitPl_append]
              rfl
        · rw [exitPl_append]
          rfl
        · rw [List.nodup_append]
          exact ⟨hs'_nd, by simp, hdisj_s'p⟩
        · intro b hblt hbs
          rw [hmem'] at hbs
          by_cases hba : b = a
          · rw [if_pos hba] at hbs; simp at hbs
          · rw [if_neg hba] at hbs
            by_cases hbp : b = p
            · simp [hbp]
            · rw [if_neg hbp] at hbs
              have := hInv.complete b (lookup_isSome_lt hbs) hbs
              simp only [List.mem_append, List.mem_cons, List.mem_singleton,
                List.not_mem_nil] at this ⊢
              tauto
        · rw [length_memFree, length_updNode, length_updNode]
          simp at hlen_le ⊢
          omega
      · refine ⟨vals l.mem (s' ++ [p]), [], ?_, ?_⟩
        · rw [vals_append]
          simp [vals, hna]
        · rw [List.append_nil, List.append_nil]
          refine vals_congr ?_
          intro b hb
          rcases List.mem_append.mp hb with hb' | hb'
          · obtain ⟨hba, hbp⟩ := hs'_agree_base b hb'
            rw [valAt, valAt, hmem', if_neg hba, if_neg hbp]
          · have hbp : b = p := by simpa using hb'
            subst hbp
            rw [valAt, valAt, hmem', if_neg hpa, if_pos rfl, hpn]
            rfl
    | cons nx t' =>
      -- interior removal
      obtain ⟨hnx, nxn, hnxn, hnxnprev, ht'_seg⟩ := segOk_cons_iff.mp ht_seg
      have hnxa : nx ≠ a := by rintro rfl; exact hat (List.mem_cons_self _ _)
      have hnxt' : nx ∉ t' := (List.nodup_cons.mp ht_nd).1
      have hpnx : p ≠ nx := by
        rintro rfl; exact hdisj_st p hps (List.mem_cons_self _ _)
      have hres := removeNode_interior hna hnaprev' hnx hpa hpnx hnxa hpn hpnext
      have hmem' : ∀ b,
          lookup (memFree (updNode (updNode (updNode l.mem a
              (fun n => { n with next := none })) nx
              (fun n => { n with prev := some p })) p
              (fun n => { n with next := some nx })) a) b =
            if b = a then none
            else if b = p then some ⟨some nx, pn.prev, pn.value⟩
            else if b = nx then some ⟨nxn.next, some p, nxn.value⟩
            else lookup l.mem b := by
        intro b
        rw [lookup_memFree]
        by_cases hba : b = a
        · rw [if_pos hba, if_pos hba]
        · rw [if_neg hba, if_neg hba, lookup_updNode]
          by_cases hbp : b = p
          · subst hbp
            rw [if_pos rfl, if_pos rfl, lookup_updNode, if_neg hpnx,
              lookup_updNode, if_neg hpa, hpn]
            rfl
          · rw [if_neg hbp, if_neg hbp, lookup_updNode]
            by_cases hbnx : b = nx
            · subst hbnx
              rw [if_pos rfl, if_pos rfl, lookup_updNode, if_neg hnxa, hnxn]
              rfl
            · rw [if_neg hbnx, if_neg hbnx, lookup_updNode, if_neg hba]
      have hs'_agree : ∀ b ∈ s',
          lookup (memFree (updNode (updNode (updNode l.mem a
              (fun n => { n with next := none })) nx
              (fun n => { n with prev := some p })) p
              (fun n => { n with next := some nx })) a) b = lookup l.mem b := by
        intro b hb
        obtain ⟨hba, hbp⟩ := hs'_agree_base b hb
        have hbnx : b ≠ nx := by
          rintro rfl
          exact hdisj_st b (by simp [hb]) (List.mem_cons_self _ _)
        rw [hmem', if_neg hba, if_neg hbp, if_neg hbnx]
      have ht'_agree : ∀ b ∈ t',
          lookup (memFree (updNode (updNode (updNode l.mem a
              (fun n => { n with next := none })) nx
              (fun n => { n with prev := some p })) p
              (fun n => { n with next := some nx })) a) b = lookup l.mem b := by
        intro b hb
        have hba : b ≠ a := by rintro rfl; exact hat (by simp [hb])
        have hbnx : b ≠ nx := by rintro rfl; exact hnxt' hb
        have hbp : b ≠ p := by
          rintro rfl
          exact hdisj_st b hps (by simp [hb])
        rw [hmem', if_neg hba, if_neg hbp, if_neg hbnx]
      refine ⟨⟨none, na.prev, na.value⟩, _, hres, rfl, by simp [valAt, hna], rfl, ?_, ?_, ?_⟩
      · simp [length_memFree, length_updNode]
      · refine ⟨?_, ?_, ?_, ?_, ?_⟩
        · rw [chainOk_iff_segOk, segOk_append_iff]
          refine ⟨some p, some nx, ?_, ?_⟩
          · rw [segOk_append_iff]
            refine ⟨ml2, some p, ?_, ?_⟩
            · rw [segOk_congr hs'_agree]
              exact hs'_seg
            · rw [segOk_singleton_iff]
              refine ⟨rfl, ⟨some nx, pn.prev, pn.value⟩, ?_, hpnprev, rfl, rfl⟩
              rw [hmem', if_neg hpa, if_pos rfl]
          · rw [segOk_cons_iff]
            refine ⟨rfl, ⟨nxn.next, some p, nxn.value⟩, ?_, rfl, ?_⟩
            · rw [hmem', if_neg hnxa, if_neg (Ne.symm hpnx), if_pos rfl]
            · rw [segOk_congr ht'_agree]
              rw [show exitPl none ((s' ++ [p]) ++ nx :: t') =
                exitPl (some nx) t' from by rw [exitPl_append]; rfl]
              rw [show exitPl none ((s' ++ [p]) ++ a :: nx :: t') =
                exitPl (some nx) t' from by rw [exitPl_append]; rfl] at ht'_seg
              exact ht'_seg
        · rw [hInv.tail_ok]
          rw [show exitPl none ((s' ++ [p]) ++ nx :: t') =
            exitPl (some nx) t' from by rw [exitPl_append]; rfl]
          rw [show exitPl none ((s' ++ [p]) ++ a :: nx :: t') =
            exitPl (some nx) t' from by rw [exitPl_append]; rfl]
        · rw [List.nodup_append]
          refine ⟨by rw [List.nodup_append]; exact ⟨hs'_nd, by simp, hdisj_s'p⟩, ht_nd, ?_⟩
          intro b hb hb'
          rcases List.mem_cons.mp hb' with rfl | hb''
          · exact hdisj_st b hb (List.mem_cons_self _ _)
          · exact hdisj_st b hb (by simp [hb''])
        · intro b hblt hbs
          rw [hmem'] at hbs
          by_cases hba : b = a
          · rw [if_pos hba] at hbs; simp at hbs
          · rw [if_neg hba] at hbs
            by_cases hbp : b = p
            · subst hbp; simp
            · rw [if_neg hbp] at hbs
              by_cases hbnx : b = nx
              · subst hbnx; simp
              · rw [if_neg hbnx] at hbs
                have := hInv.complete b (lookup_isSome_lt hbs) hbs
                simp only [List.mem_append, List.mem_cons, List.mem_singleton,
                  List.not_mem_nil] at this ⊢
                tauto
        · rw [length_memFree, length_updNode, length_updNode, length_updNode]
          simp at hlen_le ⊢
          omega
      · refine ⟨vals l.mem (s' ++ [p]), vals l.mem (nx :: t'), ?_, ?_⟩
        · rw [vals_append, vals_append]
          simp [vals, hna]
        · rw [vals_append]
          have h1 : vals (memFree (updNode (updNode (updNode l.mem a
              (fun n => { n with next := none })) nx
              (fun n => { n with prev := some p })) p
              (fun n => { n with next := some nx })) a) (s' ++ [p]) =
              vals l.mem (s' ++ [p]) := by
            refine vals_congr ?_
            intro b hb
            rcases List.mem_append.mp hb with hb' | hb'
            · rw [valAt, valAt, hs'_agree b hb']
            · have hbp : b = p := by simpa using hb'
              subst hbp
              rw [valAt, valAt, hmem', if_neg hpa, if_pos rfl, hpn]
              rfl
          have h2 : vals (memFree (updNode (updNode (updNode l.mem a
              (fun n => { n with next := none })) nx
              (fun n => { n with prev := some p })) p
              (fun n => { n with next := some nx })) a) (nx :: t') =
              vals l.mem (nx :: t') := by
            refine vals_congr ?_
            intro b hb
            rcases List.mem_cons.mp hb with rfl | hb'
            · rw [valAt, valAt, hmem', if_neg hnxa, if_neg ?_, if_pos rfl, hnxn]
              · rfl
              · exact fun h => hpnx h.symm
            · rw [valAt, valAt, ht'_agree b hb']
          rw [h1, h2]

/-! ### Iterated pushes -/

theorem pushAll_spec : ∀ (vs : List T) {l : LinkedList T} {cs : List Nat},
    Inv l cs → ∃ es l' ds, LinkedList.pushAll l vs = some (es, l') ∧
      l'.id = l.id ∧
      Inv l' (cs ++ ds) ∧
      vals l'.mem (cs ++ ds) = vals l.mem cs ++ vs ∧
      (∀ b ∈ cs, valAt l'.mem b = valAt l.mem b) := by
  intro vs
  induction vs with
  | nil =>
    intro l cs hInv
    exact ⟨[], l, [], rfl, rfl, by simpa using hInv, by simp, fun b hb => rfl⟩
  | cons v vs ih =>
    intro l cs hInv
    obtain ⟨l1, hpush, hid, hlen, hInv1, hpres, hval, hvals, -, -, -, -⟩ :=
      push_spec hInv v
    obtain ⟨es, l2, ds, hpa, hid2, hInv2, hvals2, hpres2⟩ := ih hInv1
    refine ⟨⟨l.id, some l.mem.length⟩ :: es, l2, l.mem.length :: ds, ?_, ?_, ?_, ?_, ?_⟩
    · unfold LinkedList.pushAll
      rw [hpush]
      dsimp only
      rw [hpa]
    · rw [hid2, hid]
    · rw [show cs ++ l.mem.length :: ds = (cs ++ [l.mem.length]) ++ ds from by simp]
      exact hInv2
    · rw [show cs ++ l.mem.length :: ds = (cs ++ [l.mem.length]) ++ ds from by simp]
      rw [hvals2, hvals]
      simp
    · intro b hb
      rw [hpres2 b (by simp [hb]), hpres b hb]

/-! ### `get_mut` on a live handle -/

theorem get_mut_of_valAt {l : LinkedList T} {a : Nat} {v : T}
    (h : valAt l.mem a = some v) :
    LinkedList.get_mut l ⟨l.id, some a⟩ = Except.ok v := by
  unfold LinkedList.get_mut
  simp only [LinkedList.ensure_same_ll, beq_self_eq_true, if_true]
  rw [valAt] at h
  cases hl : lookup l.mem a with
  | none => rw [hl] at h; simp at h
  | some n =>
    rw [hl] at h
    simp at h
    simp [h]

/-! ### The error paths of `remove` and `get_mut` -/

theorem removeNode_foreign {l : LinkedList T} {e : Entry T} (hid : e.ll ≠ l.id) :
    LinkedList.removeNode l e = (Except.error LLErr.foreignHandle, l) := by
  unfold LinkedList.removeNode
  rw [if_neg (by simpa [LinkedList.ensure_same_ll] using hid)]

theorem remove_foreign {l : LinkedList T} {e : Entry T} (hid : e.ll ≠ l.id) :
    LinkedList.remove l e = (Except.error LLErr.foreignHandle, l) := by
  unfold LinkedList.remove
  rw [removeNode_foreign hid]

theorem get_mut_foreign {l : LinkedList T} {e : Entry T} (hid : e.ll ≠ l.id) :
    LinkedList.get_mut l e = Except.error LLErr.foreignHandle := by
  unfold LinkedList.get_mut
  rw [if_neg (by simpa [LinkedList.ensure_same_ll] using hid)]

theorem removeNode_null {l : LinkedList T} {e : Entry T} (hid : e.ll = l.id)
    (hn : e.node = none) :
    LinkedList.removeNode l e = (Except.error LLErr.invalidEntry, l) := by
  obtain ⟨ell, enode⟩ := e
  simp only at hid hn
  subst hid
  subst hn
  unfold LinkedList.removeNode
  simp only [LinkedList.ensure_same_ll, beq_self_eq_true, if_true]

theorem removeNode_dead {l : LinkedList T} {e : Entry T} {a : Nat}
    (hid : e.ll = l.id) (hn : e.node = some a) (hl : lookup l.mem a = none) :
    LinkedList.removeNode l e = (Except.error LLErr.corrupt, l) := by
  obtain ⟨ell, enode⟩ := e
  simp only at hid hn
  subst hid
  subst hn
  unfold LinkedList.removeNode
  simp only [LinkedList.ensure_same_ll, beq_self_eq_true, if_true]
  rw [hl]

/-! ### Successful removals only happen on member handles -/

theorem removeNode_ok_inv {l : LinkedList T} {cs : List Nat} (hInv : Inv l cs)
    {e : Entry T} {n : Node T} {l' : LinkedList T}
    (h : LinkedList.removeNode l e = (Except.ok n, l')) :
    ∃ a, a ∈ cs ∧ e = ⟨l.id, some a⟩ := by
  by_cases hid : e.ll = l.id
  case neg =>
    rw [removeNode_foreign hid] at h
    simp at h
  case pos =>
    cases hnode : e.node with
    | none =>
      rw [removeNode_null hid hnode] at h
      simp at h
    | some a =>
      cases hl : lookup l.mem a with
      | none =>
        rw [removeNode_dead hid hnode hl] at h
        simp at h
      | some node =>
        have hmem : a ∈ cs :=
          hInv.complete a (lookup_isSome_lt (by simp [hl])) (by simp [hl])
        refine ⟨a, hmem, ?_⟩
        cases e
        simp only [Entry.mk.injEq]
        exact ⟨hid, hnode⟩

theorem remove_ok_removeNode {l l' : LinkedList T} {e : Entry T} {v : T}
    (h : LinkedList.remove l e = (Except.ok v, l')) :
    ∃ n, LinkedList.removeNode l e = (Except.ok n, l') ∧ n.value = v := by
  unfold LinkedList.remove at h
  cases hrn : LinkedList.removeNode l e with
  | mk r lr =>
    rw [hrn] at h
    cases r with
    | error er => simp at h
    | ok n =>
      simp only [Prod.mk.injEq] at h
      obtain ⟨h1, h2⟩ := h
      injection h1 with h1
      exact ⟨n, by rw [h2], h1⟩

/-! ### The entry produced by `push` -/

theorem push_entry {l l' : LinkedList T} {v : T} {e : Entry T}
    (h : LinkedList.push l v = some (e, l')) :
    e = ⟨l.id, some l.mem.length⟩ := by
  unfold LinkedList.push at h
  cases ht : l.tail with
  | none =>
    rw [ht] at h
    dsimp only at h
    simp only [Option.some.injEq, Prod.mk.injEq] at h
    exact h.1.symm
  | some t =>
    rw [ht] at h
    dsimp only at h
    cases hl : lookup (l.mem ++ [some ⟨none, none, v⟩]) t with
    | none => rw [hl] at h; simp at h
    | some tn =>
      rw [hl] at h
      dsimp only at h
      simp only [Option.some.injEq, Prod.mk.injEq] at h
      exact h.1.symm

/-! ### `remove` in terms of `removeNode` -/

theorem remove_of_removeNode_error {l l' : LinkedList T} {e : Entry T} {er : LLErr}
    (h : LinkedList.removeNode l e = (Except.error er, l')) :
    LinkedList.remove l e = (Except.error er, l') := by
  unfold LinkedList.remove
  rw [h]

theorem remove_of_removeNode_ok {l l' : LinkedList T} {e : Entry T} {n : Node T}
    (h : LinkedList.removeNode l e = (Except.ok n, l')) :
    LinkedList.remove l e = (Except.ok n.value, l') := by
  unfold LinkedList.remove
  rw [h]

/-- The `expect("invalid entry")` failure can only happen when the
handle's node pointer is null: on any handle with a non-null pointer,
`removeNode` never produces `invalidEntry`, whatever the list state. -/
theorem removeNode_not_invalidEntry {m : LinkedList T} {e : Entry T} {a : Nat}
    (hn : e.node = some a) :
    (LinkedList.removeNode m e).1 ≠ Except.error LLErr.invalidEntry := by
  have htb : ∀ (mm : Mem T) (old : Option Nat),
      LinkedList.takeBox mm old ≠ Except.error LLErr.invalidEntry := by
    intro mm old
    unfold LinkedList.takeBox
    cases old with
    | none => simp
    | some oa =>
      cases h2 : lookup mm oa with
      | none => simp [h2]
      | some n2 => simp [h2]
  unfold LinkedList.removeNode
  by_cases hid : LinkedList.ensure_same_ll m e
  case neg =>
    rw [if_neg hid]
    simp
  case pos =>
    rw [if_pos hid, hn]
    dsimp only
    cases hl : lookup m.mem a with
    | none => simp
    | some node =>
      dsimp only
      cases hp : node.prev with
      | none =>
        cases hnx : node.next with
        | none =>
          dsimp only
          cases htk : LinkedList.takeBox
              (updNode m.mem a (fun n => { n with next := none })) m.head with
          | error er =>
            have h2 := htb (updNode m.mem a (fun n => { n with next := none })) m.head
            rw [htk] at h2
            simpa using h2
          | ok pr =>
            obtain ⟨n2, mm2⟩ := pr
            simp
        | some nx =>
          dsimp only
          cases htk : LinkedList.takeBox
              (updNode (updNode m.mem a (fun n => { n with next := none })) nx
                (fun n => { n with prev := none })) m.head with
          | error er =>
            have h2 := htb (updNode (updNode m.mem a (fun n => { n with next := none })) nx
              (fun n => { n with prev := none })) m.head
            rw [htk] at h2
            simpa using h2
          | ok pr =>
            obtain ⟨n2, mm2⟩ := pr
            simp
      | some p =>
        cases hnx : node.next with
        | none =>
          dsimp only
          cases hlp : lookup (updNode m.mem a (fun n => { n with next := none })) p with
          | none => simp
          | some pv =>
            dsimp only
            cases htk : LinkedList.takeBox
                (updNode (updNode m.mem a (fun n => { n with next := none })) p
                  (fun n => { n with next := none }))
                (linkAt (updNode m.mem a (fun n => { n with next := none })) p) with
            | error er =>
              have h2 := htb (updNode (updNode m.mem a (fun n => { n with next := none })) p
                  (fun n => { n with next := none }))
                (linkAt (updNode m.mem a (fun n => { n with next := none })) p)
              rw [htk] at h2
              simpa using h2
            | ok pr =>
              obtain ⟨n2, mm2⟩ := pr
              simp
        | some nx =>
          dsimp only
          cases hlp : lookup (updNode m.mem a (fun n => { n with next := none })) p with
          | none => simp
          | some pv =>
            dsimp only
            cases htk : LinkedList.takeBox
                (updNode (updNode (updNode m.mem a (fun n => { n with next := none })) nx
                  (fun n => { n with prev := some p })) p
                  (fun n => { n with next := some nx }))
                (linkAt (updNode (updNode m.mem a (fun n => { n with next := none })) nx
                  (fun n => { n with prev := some p })) p) with
            | error er =>
              have h2 := htb (updNode (updNode (updNode m.mem a
                    (fun n => { n with next := none })) nx
                  (fun n => { n with prev := some p })) p
                  (fun n => { n with next := some nx }))
                (linkAt (updNode (updNode m.mem a (fun n => { n with next := none })) nx
                  (fun n => { n with prev := some p })) p)
              rw [htk] at h2
              simpa using h2
            | ok pr =>
              obtain ⟨n2, mm2⟩ := pr
              simp

/-- A fixed two-element list over `Nat` (values 10 and 20 at addresses 0
and 1), used as a concrete instance in witness statements. -/
def pairList : LinkedList Nat :=
  ⟨0, [some ⟨some 1, none, 10⟩, some ⟨none, some 0, 20⟩], some 0, some 1⟩

theorem pairList_inv : Inv pairList [0, 1] :=
  ⟨by decide, by decide, by decide, by decide, by decide⟩

theorem new_inv (id : Nat) : Inv (LinkedList.new id : LinkedList T) [] := by
  refine ⟨rfl, rfl, by simp, ?_, by simp [LinkedList.new]⟩
  intro b hblt hbs
  simp [LinkedList.new] at hblt

theorem reachable_inv {l : LinkedList T} (h : Reachable l) : ∃ cs, Inv l cs := by
  induction h with
  | base id =>
    refine ⟨[], ⟨rfl, rfl, by simp, ?_, by simp [LinkedList.new]⟩⟩
    intro b hblt hbs
    simp [LinkedList.new] at hblt
  | push_step hr hp ih =>
    obtain ⟨cs, hInv⟩ := ih
    obtain ⟨l'', hpush, -, -, hInv', -⟩ := push_spec hInv _
    have heq := hp.symm.trans hpush
    simp only [Option.some.injEq, Prod.mk.injEq] at heq
    obtain ⟨-, heq2⟩ := heq
    exact ⟨_, heq2 ▸ hInv'⟩
  | remove_step hr hrem ih =>
    obtain ⟨cs, hInv⟩ := ih
    obtain ⟨n, hrn, -⟩ := remove_ok_removeNode hrem
    obtain ⟨a, ha, he⟩ := removeNode_ok_inv hInv hrn
    subst he
    obtain ⟨n0, l0, hres, -, -, -, -, hInv0, -⟩ := remove_spec hInv ha
    rw [hres] at hrn
    simp only [Prod.mk.injEq] at hrn
    exact ⟨_, hrn.2 ▸ hInv0⟩

/-! ### The claims -/

/-- C1: for every list satisfying the structural invariants (`Inv l cs`)
and every valid handle produced by this list (`⟨l.id, some a⟩` with
`a ∈ cs` — covering head, tail, interior and sole node alike),
`remove` succeeds and leaves the list satisfying the structural
invariants for the chain with `a` deleted: the forward chain from the
head visits every remaining live node exactly once and ends at the node
referenced by the tail back-reference, every node except the first has
its backward link resolving to its immediate predecessor, and the first
node's backward link is empty — all of which is the content of `Inv`. -/
theorem c1_remove_preserves_invariants {T : Type} {l : LinkedList T}
    {cs : List Nat} {a : Nat} (hInv : Inv l cs) (ha : a ∈ cs) :
    ∃ v l', LinkedList.remove l ⟨l.id, some a⟩ = (Except.ok v, l') ∧
      Inv l' (cs.erase a) := by
  obtain ⟨n, l', hres, -, -, -, -, hInv', -⟩ := remove_spec hInv ha
  exact ⟨n.value, l', remove_of_removeNode_ok hres, hInv'⟩

theorem c1_witness :
    ∃ v l', LinkedList.remove pairList ⟨0, some 0⟩ = (Except.ok v, l') ∧
      Inv l' ([0, 1].erase 0) :=
  c1_remove_preserves_invariants pairList_inv (by decide)

/-- C2: pushing any finite sequence of values onto a freshly created
list and then iterating yields exactly the pushed values in push order,
and nothing else. -/
theorem c2_iter_yields_pushes {T : Type} (id : Nat) (vs : List T) :
    ∃ es l', LinkedList.pushAll (LinkedList.new id) vs = some (es, l') ∧
      LinkedList.iter l' = vs := by
  obtain ⟨es, l', ds, hpa, -, hInv', hvals, -⟩ := pushAll_spec vs (new_inv id)
  refine ⟨es, l', hpa, ?_⟩
  rw [iter_eq_vals hInv']
  simpa [LinkedList.new, vals] using hvals

/-- C3: removing a valid handle whose node stores the value `v` (which,
by C6/C10, is exactly the value pushed when the handle was created)
returns `v`; afterwards `iter` yields the same sequence with that one
element occurrence deleted, so the iteration count drops by exactly
one. -/
theorem c3_remove_returns_value {T : Type} {l : LinkedList T}
    {cs : List Nat} {a : Nat} {v : T} (hInv : Inv l cs) (ha : a ∈ cs)
    (hv : valAt l.mem a = some v) :
    ∃ l', LinkedList.remove l ⟨l.id, some a⟩ = (Except.ok v, l') ∧
      (∃ xs ys, LinkedList.iter l = xs ++ v :: ys ∧
        LinkedList.iter l' = xs ++ ys) ∧
      (LinkedList.iter l').length + 1 = (LinkedList.iter l).length := by
  obtain ⟨n, l', hres, -, hval, -, -, hInv', xs, ys, hold, hnew⟩ :=
    remove_spec hInv ha
  rw [hv] at hval
  injection hval with hnv
  refine ⟨l', ?_, ⟨xs, ys, ?_, ?_⟩, ?_⟩
  · rw [← hnv]
    exact remove_of_removeNode_ok hres
  · rw [iter_eq_vals hInv, hold, hnv]
  · rw [iter_eq_vals hInv', hnew]
  · rw [iter_eq_vals hInv, iter_eq_vals hInv', hold, hnew]
    simp
    omega

theorem c3_witness :
    ∃ l', LinkedList.remove pairList ⟨0, some 1⟩ = (Except.ok 20, l') ∧
      (∃ xs ys, LinkedList.iter pairList = xs ++ 20 :: ys ∧
        LinkedList.iter l' = xs ++ ys) ∧
      (LinkedList.iter l').length + 1 = (LinkedList.iter pairList).length :=
  c3_remove_returns_value pairList_inv (by decide) (by decide)

/-- C4: a handle produced by list A's `push`, presented to a different
list B (distinct identity), is rejected by both `remove` and `get_mut`
with the `ForeignHandle` failure before any structural mutation: the
returned state of B is B itself, unchanged, and A — which the call does
not even touch in this explicit-state model — is trivially unchanged;
the operation does not partially apply. -/
theorem c4_foreign_handle_rejected {T : Type} {A A' B : LinkedList T}
    {v : T} {e : Entry T} (hp : LinkedList.push A v = some (e, A'))
    (hid : A.id ≠ B.id) :
    LinkedList.remove B e = (Except.error LLErr.foreignHandle, B) ∧
    LinkedList.get_mut B e = Except.error LLErr.foreignHandle := by
  have he := push_entry hp
  subst he
  have hne : (⟨A.id, some A.mem.length⟩ : Entry T).ll ≠ B.id := hid
  exact ⟨remove_foreign hne, get_mut_foreign hne⟩

theorem c4_witness :
    LinkedList.remove (LinkedList.new 1 : LinkedList Nat) ⟨0, some 0⟩ =
      (Except.error LLErr.foreignHandle, LinkedList.new 1) ∧
    LinkedList.get_mut (LinkedList.new 1 : LinkedList Nat) ⟨0, some 0⟩ =
      Except.error LLErr.foreignHandle :=
  c4_foreign_handle_rejected
    (show LinkedList.push (LinkedList.new 0 : LinkedList Nat) 5 =
      some (⟨0, some 0⟩, ⟨0, [some ⟨none, none, 5⟩], some 0, some 0⟩) by decide)
    (by decide)

/-- C5: the case-split postcondition of `push`.  On a list satisfying
the invariant, `push v` always succeeds and returns the handle to the
fresh node (address `l.mem.length`).  If the list was empty (under the
invariant, equivalently: the tail back-reference was empty), the new
node becomes both the head and the node referenced by the tail
back-reference, and its backward link is empty.  Otherwise, with `t`
the former tail, the new node's backward link points to `t`, `t`'s
forward link owns the new node, and the tail back-reference is updated
to the new node. -/
theorem c5_push_postcondition {T : Type} {l : LinkedList T}
    {cs : List Nat} (hInv : Inv l cs) (v : T) :
    ∃ l', LinkedList.push l v = some (⟨l.id, some l.mem.length⟩, l') ∧
      (LinkedList.is_empty l = true ↔ l.tail = none) ∧
      (l.tail = none →
        l'.head = some l.mem.length ∧ l'.tail = some l.mem.length ∧
        (lookup l'.mem l.mem.length).map Node.prev = some none) ∧
      (∀ t, l.tail = some t →
        (lookup l'.mem l.mem.length).map Node.prev = some (some t) ∧
        (lookup l'.mem t).map Node.next = some (some l.mem.length) ∧
        l'.tail = some l.mem.length) := by
  obtain ⟨l', hpush, -, -, -, -, -, -, hhead, htail, hprev, hnextf⟩ :=
    push_spec hInv v
  refine ⟨l', hpush, ?_, ?_, ?_⟩
  · rw [LinkedList.is_empty]
    constructor
    · intro hh
      have hh' : l.head = none := by
        cases hl : l.head
        · rfl
        · rw [hl] at hh; simp at hh
      cases hcs : cs with
      | nil => rw [hInv.tail_ok, hcs]; rfl
      | cons x xs =>
        exfalso
        have hc := hInv.chain
        rw [hcs] at hc
        simp [chainOk, hh'] at hc
    · intro ht
      have hcs : cs = [] := exitPl_none_eq_nil (hInv.tail_ok.symm.trans ht)
      have hh : l.head = none := by
        have hc := hInv.chain
        rw [hcs] at hc
        simpa [chainOk] using hc
      rw [hh]
      rfl
  · intro ht
    have hcs : cs = [] := exitPl_none_eq_nil (hInv.tail_ok.symm.trans ht)
    refine ⟨?_, htail, ?_⟩
    · rw [hhead, if_pos hcs]
    · rw [hprev, hcs]
      rfl
  · intro t ht
    have hex : exitPl none cs = some t := hInv.tail_ok.symm.trans ht
    exact ⟨by rw [hprev, hex], hnextf t hex, htail⟩

theorem c5_witness :
    ∃ l', LinkedList.push pairList 99 = some (⟨0, some 2⟩, l') ∧
      (LinkedList.is_empty pairList = true ↔ pairList.tail = none) ∧
      (pairList.tail = none →
        l'.head = some 2 ∧ l'.tail = some 2 ∧
        (lookup l'.mem 2).map Node.prev = some none) ∧
      (∀ t, pairList.tail = some t →
        (lookup l'.mem 2).map Node.prev = some (some t) ∧
        (lookup l'.mem t).map Node.next = some (some 2) ∧
        l'.tail = some 2) :=
  c5_push_postcondition pairList_inv 99

/-- C6: for any handle `e` returned by `push v` on a list satisfying
the invariant, immediately calling `get_mut e` on the resulting list
returns exactly `v`. -/
theorem c6_push_then_get_mut {T : Type} {l l' : LinkedList T}
    {cs : List Nat} {v : T} {e : Entry T} (hInv : Inv l cs)
    (hp : LinkedList.push l v = some (e, l')) :
    LinkedList.get_mut l' e = Except.ok v := by
  obtain ⟨l'', hpush, hid, -, -, -, hval, -, -, -, -, -⟩ := push_spec hInv v
  have heq := hp.symm.trans hpush
  simp only [Option.some.injEq, Prod.mk.injEq] at heq
  obtain ⟨he, hl⟩ := heq
  subst he
  subst hl
  have hgm := get_mut_of_valAt hval
  rw [hid] at hgm
  exact hgm

theorem c6_witness :
    LinkedList.get_mut
      (⟨0, [some ⟨some 1, none, 10⟩, some ⟨some 2, some 0, 20⟩,
        some ⟨none, some 1, 99⟩], some 0, some 2⟩ : LinkedList Nat)
      ⟨0, some 2⟩ = Except.ok 99 :=
  c6_push_then_get_mut pairList_inv (by decide)

/-- C7: whenever `removeNode` (the body of `remove` up to the final
value projection) succeeds on a list satisfying the invariant, the
removed node's own forward link is empty — its `next` was taken before
extraction — so the `debug_assert!(removed.next.is_none())` in `remove`
never fails. -/
theorem c7_removed_forward_link_empty {T : Type} {l l' : LinkedList T}
    {cs : List Nat} {e : Entry T} {n : Node T} (hInv : Inv l cs)
    (h : LinkedList.removeNode l e = (Except.ok n, l')) :
    n.next = none := by
  obtain ⟨a, ha, he⟩ := removeNode_ok_inv hInv h
  subst he
  obtain ⟨n0, l0, hres, hnext, -, -, -, -, -⟩ := remove_spec hInv ha
  rw [hres] at h
  simp only [Prod.mk.injEq] at h
  obtain ⟨h1, -⟩ := h
  injection h1 with h1
  exact h1 ▸ hnext

theorem c7_witness : (⟨none, none, 10⟩ : Node Nat).next = none :=
  c7_removed_forward_link_empty pairList_inv
    (show LinkedList.removeNode pairList ⟨0, some 0⟩ =
      (Except.ok ⟨none, none, 10⟩,
        ⟨0, [none, some ⟨none, none, 20⟩], some 1, some 1⟩) by rfl)

/-- C8: in every state reachable from `new` by the public operations,
the tail back-reference is empty iff the head link is empty.  Since
`push` only calls `push_front` when the tail is empty, `push_front` is
only ever invoked on an empty list, where it takes the `None` branch
(shown here by computing `push_front` on any such state: the result is
exactly the `link_no_prev` branch outcome).  The content-swapping
`Some(head)` branch is therefore unreachable from the public
interface. -/
theorem c8_push_front_some_branch_unreachable {T : Type}
    {l : LinkedList T} (hr : Reachable l) :
    (l.tail = none ↔ l.head = none) ∧
    (l.tail = none → ∀ (m : Mem T) (addr : Nat),
      LinkedList.push_front ⟨l.id, m, l.head, l.tail⟩ addr =
        ⟨l.id, updNode m addr (fun n => { n with prev := none }),
          some addr, some addr⟩) := by
  obtain ⟨cs, hInv⟩ := reachable_inv hr
  have hiff : l.tail = none ↔ l.head = none := by
    constructor
    · intro ht
      have hcs : cs = [] := exitPl_none_eq_nil (hInv.tail_ok.symm.trans ht)
      have hc := hInv.chain
      rw [hcs] at hc
      simpa [chainOk] using hc
    · intro hh
      cases hcs : cs with
      | nil => rw [hInv.tail_ok, hcs]; rfl
      | cons x xs =>
        exfalso
        have hc := hInv.chain
        rw [hcs] at hc
        simp [chainOk, hh] at hc
  refine ⟨hiff, ?_⟩
  intro ht m addr
  have hh : l.head = none := hiff.mp ht
  unfold LinkedList.push_front
  dsimp only
  rw [hh]

theorem c8_witness :
    ((LinkedList.new 0 : LinkedList Nat).tail = none ↔
      (LinkedList.new 0 : LinkedList Nat).head = none) ∧
    ((LinkedList.new 0 : LinkedList Nat).tail = none →
      ∀ (m : Mem Nat) (addr : Nat),
        LinkedList.push_front
            ⟨(LinkedList.new 0 : LinkedList Nat).id, m,
              (LinkedList.new 0 : LinkedList Nat).head,
              (LinkedList.new 0 : LinkedList Nat).tail⟩ addr =
          ⟨(LinkedList.new 0 : LinkedList Nat).id,
            updNode m addr (fun n => { n with prev := none }),
            some addr, some addr⟩) :=
  c8_push_front_some_branch_unreachable (Reachable.base 0)

/-- C9: a handle returned by `push` always carries a non-null node
pointer, and consequently presenting such a handle to `remove` — on any
list whatsoever — can never trigger the `expect("invalid entry")`
failure, which is raised only when the handle's node pointer is null. -/
theorem c9_push_handle_never_invalid_entry {T : Type}
    {l l' : LinkedList T} {v : T} {e : Entry T}
    (hp : LinkedList.push l v = some (e, l')) :
    e.node.isSome ∧ ∀ m : LinkedList T,
      (LinkedList.remove m e).1 ≠ Except.error LLErr.invalidEntry := by
  have he := push_entry hp
  subst he
  refine ⟨rfl, fun m => ?_⟩
  have h1 : (LinkedList.removeNode m ⟨l.id, some l.mem.length⟩).1 ≠
      Except.error LLErr.invalidEntry := removeNode_not_invalidEntry rfl
  unfold LinkedList.remove
  cases hrn : LinkedList.removeNode m ⟨l.id, some l.mem.length⟩ with
  | mk r lr =>
    rw [hrn] at h1
    cases r with
    | error er => simpa using h1
    | ok n => simp

theorem c9_witness :
    (⟨0, some 0⟩ : Entry Nat).node.isSome ∧ ∀ m : LinkedList Nat,
      (LinkedList.remove m ⟨0, some 0⟩).1 ≠ Except.error LLErr.invalidEntry :=
  c9_push_handle_never_invalid_entry
    (show LinkedList.push (LinkedList.new 0 : LinkedList Nat) 5 =
      some (⟨0, some 0⟩, ⟨0, [some ⟨none, none, 5⟩], some 0, some 0⟩) by decide)

/-- C10: handle stability under later pushes — if `e` is the handle
returned by `push v`, then after any further sequence of pushes (no
removals) `get_mut e` still yields exactly `v`: pushes never change the
value reachable through a previously issued handle. -/
theorem c10_handle_stable_under_pushes {T : Type}
    {l l1 l2 : LinkedList T} {cs : List Nat} {v : T} {e : Entry T}
    {ws : List T} {es : List (Entry T)} (hInv : Inv l cs)
    (hp : LinkedList.push l v = some (e, l1))
    (hpa : LinkedList.pushAll l1 ws = some (es, l2)) :
    LinkedList.get_mut l2 e = Except.ok v := by
  obtain ⟨l'', hpush, hid1, -, hInv1, -, hval, -, -, -, -, -⟩ := push_spec hInv v
  have heq := hp.symm.trans hpush
  simp only [Option.some.injEq, Prod.mk.injEq] at heq
  obtain ⟨he, hl⟩ := heq
  subst he
  subst hl
  obtain ⟨es', l2', ds, hpa', hid2, -, -, hpres2⟩ := pushAll_spec ws hInv1
  have heq2 := hpa.symm.trans hpa'
  simp only [Option.some.injEq, Prod.mk.injEq] at heq2
  obtain ⟨-, hl2⟩ := heq2
  subst hl2
  have hvv : valAt l2.mem l.mem.length = some v := by
    rw [hpres2 l.mem.length (by simp)]
    exact hval
  have hgm := get_mut_of_valAt hvv
  rw [hid2, hid1] at hgm
  exact hgm

theorem c10_witness :
    LinkedList.get_mut
      (⟨0, [some ⟨some 1, none, 7⟩, some ⟨some 2, some 0, 8⟩,
        some ⟨none, some 1, 9⟩], some 0, some 2⟩ : LinkedList Nat)
      ⟨0, some 0⟩ = Except.ok 7 :=
  c10_handle_stable_under_pushes (new_inv 0)
    (show LinkedList.push (LinkedList.new 0 : LinkedList Nat) 7 =
      some (⟨0, some 0⟩, ⟨0, [some ⟨none, none, 7⟩], some 0, some 0⟩) by decide)
    (show LinkedList.pushAll
        (⟨0, [some ⟨none, none, 7⟩], some 0, some 0⟩ : LinkedList Nat) [8, 9] =
      some ([⟨0, some 1⟩, ⟨0, some 2⟩],
        ⟨0, [some ⟨some 1, none, 7⟩, some ⟨some 2, some 0, 8⟩,
          some ⟨none, some 1, 9⟩], some 0, some 2⟩) by decide)

end Mio
